import Mathlib

/-!
Verification of the BDM-Copilot retrieval subsystem.

This file gives a shallow embedding, in Lean 4, of the retrieval subsystem of
the BDM-Copilot repository (`engine/pdf_processor.py`, `engine/knowledge_base.py`,
`engine/vector_db.py`) and proves or refutes the stated properties of
chunking, keyword search, knowledge-base building and relevant-content search.

Modelling conventions:
* Python strings are modelled as `List Char` (`Text`); `str.lower` is modelled
  on the ASCII range (all texts appearing in the development are ASCII).
* Python's float scores `a / b` are modelled as rationals `mkRat a b`
  (`mkRat a b` equals `(a : ℚ) / b`, see `mkRat_eq_cast_div`; both are `0` for
  `b = 0`, where Python would raise `ZeroDivisionError` — see claim C10).
* The chunking `while` loop is modelled with explicit fuel; exhausting the fuel
  (`none`) models non-termination of the Python loop.
* Python dict fields that a routine may or may not have set are modelled as
  `Option` fields (for example `document_name`, which `_flatten_chunks` adds).
* `streamlit` progress/warning/error calls are pure logging and are not modelled.
-/

open List

abbrev Text := List Char

/-- The 26 upper/lower ASCII letter pairs, used to model Python `str.lower`
on the ASCII range. -/
def asciiLowerPairs : List (Char × Char) :=
  [('A', 'a'), ('B', 'b'), ('C', 'c'), ('D', 'd'), ('E', 'e'), ('F', 'f'),
   ('G', 'g'), ('H', 'h'), ('I', 'i'), ('J', 'j'), ('K', 'k'), ('L', 'l'),
   ('M', 'm'), ('N', 'n'), ('O', 'o'), ('P', 'p'), ('Q', 'q'), ('R', 'r'),
   ('S', 's'), ('T', 't'), ('U', 'u'), ('V', 'v'), ('W', 'w'), ('X', 'x'),
   ('Y', 'y'), ('Z', 'z')]

/-- One character of Python `str.lower`, restricted to ASCII. -/
def pyLower (c : Char) : Char :=
  match asciiLowerPairs.find? (fun p => p.1 == c) with
  | some p => p.2
  | none => c

/-- Python `str.lower` on a whole string (ASCII model). -/
def lower (t : Text) : Text := t.map pyLower

/-- Python whitespace, as used by `str.split()` and `str.strip()`. -/
def isSpaceChar (c : Char) : Bool :=
  c == ' ' || c == '\t' || c == '\n' || c == '\r' || c == '\x0b' || c == '\x0c'

/-- Prefix test: `leadsIn p t` is true when `p` occurs at the very start of `t`
(the prefix test behind Python substring scanning). -/
def leadsIn : Text → Text → Bool
  | [], _ => true
  | _ :: _, [] => false
  | a :: ps, b :: ts => a == b && leadsIn ps ts

/-- Auxiliary scan for `countOcc`: counts matches left-to-right for a
non-empty pattern `p`; `skip` is the number of characters of a previous match
still to be consumed, making the scan non-overlapping. -/
def countOccAux (p : Text) : ℕ → Text → ℕ
  | _, [] => 0
  | skip + 1, _ :: rest => countOccAux p skip rest
  | 0, c :: rest =>
    if leadsIn p (c :: rest) then 1 + countOccAux p (p.length - 1) rest
    else countOccAux p 0 rest

/-- Python `str.count`: number of non-overlapping occurrences of `p` in `t`
scanning left to right; for the empty pattern Python returns `len(t) + 1`. -/
def countOcc (p t : Text) : ℕ :=
  match p with
  | [] => t.length + 1
  | a :: ps => countOccAux (a :: ps) 0 t

/-- Python substring containment `p in t`. -/
def containsSub (p : Text) : Text → Bool
  | [] => p.isEmpty
  | c :: rest => leadsIn p (c :: rest) || containsSub p rest

/-- Python `str.find`: index of the first occurrence of `p` in `t`,
`none` standing for Python's `-1`. -/
def findSub (p : Text) : Text → Option ℕ
  | [] => if leadsIn p [] then some 0 else none
  | c :: rest =>
    if leadsIn p (c :: rest) then some 0
    else (findSub p rest).map (fun n => n + 1)

/-- Auxiliary scan for `wordCount`; the flag records whether the scan is
currently inside a word. -/
def wordCountAux (inWord : Bool) : Text → ℕ
  | [] => 0
  | c :: rest =>
    if isSpaceChar c then wordCountAux false rest
    else (if inWord then 0 else 1) + wordCountAux true rest

/-- Python `len(s.split())`: the number of maximal whitespace-free runs. -/
def wordCount (t : Text) : ℕ := wordCountAux false t

/-- Python `str.strip()`: remove leading and trailing whitespace. -/
def strip (t : Text) : Text :=
  ((t.dropWhile isSpaceChar).reverse.dropWhile isSpaceChar).reverse

/-- The Python slicing `t[s:e]` for `0 ≤ s ≤ e` (out-of-range ends are clamped). -/
def pySlice (t : Text) (s e : ℕ) : Text := (t.take e).drop s

/-- Python `s.split()` (no separator): split on whitespace runs, dropping
empty pieces; `acc` collects the current word reversed. -/
def pySplitAux : Text → Text → List Text
  | [], acc => if acc.isEmpty then [] else [acc.reverse]
  | c :: rest, acc =>
    if isSpaceChar c then
      (if acc.isEmpty then pySplitAux rest [] else acc.reverse :: pySplitAux rest [])
    else pySplitAux rest (c :: acc)

def pySplit (t : Text) : List Text := pySplitAux t []

/-! Section: Chunks (`PDFProcessor.chunk_text`, pdf_processor.py lines 76-109)

A `Chunk` models one of the chunk dicts produced by `chunk_text`; the
`Option` fields model dict keys that later stages may add
(`process_all_pdfs` adds `source_file`, `source_title`, `total_pages`;
`DocumentSearch._flatten_chunks` adds `document_name`; the short-text branch
of `chunk_text` omits `char_count`). -/

structure Chunk where
  text : Text
  chunk_id : ℕ
  start_char : ℕ
  end_char : ℕ
  char_count : Option ℕ
  source_file : Option Text
  source_title : Option Text
  total_pages : Option ℕ
  document_name : Option Text
deriving DecidableEq

/-- Python `text.rfind('.', s, e)`: the largest index `i` with
`s ≤ i < min e (len text)` and `text[i] = c`; `none` models `-1`. -/
def rfindIdx (t : Text) (c : Char) (s e : ℕ) : Option ℕ :=
  ((List.range (min e t.length)).filter (fun i => decide (s ≤ i) && (t.getD i ' ' == c))).getLast?

/-- The chunk end computed by one iteration of the `chunk_text` loop:
`end = start + chunk_size`, retracted to just after the last `.` in the
window when that dot lies after `start + chunk_size * 0.5`.  The float
comparison `sentence_end > start + chunk_size * 0.5` is modelled exactly by
the integer comparison `chunk_size + 2 * start < 2 * sentence_end`. -/
def chunkEnd (t : Text) (cs start : ℕ) : ℕ :=
  let e0 := start + cs
  if e0 < t.length then
    match rfindIdx t '.' start e0 with
    | some se => if cs + 2 * start < 2 * se then se + 1 else e0
    | none => e0
  else e0

/-- The next loop start: `end - overlap` when the window ends inside the
text, otherwise `len(text)` (which terminates the loop). -/
def nextStart (t : Text) (cs ov start : ℕ) : ℕ :=
  let e := chunkEnd t cs start
  if e < t.length then e - ov else t.length

/-- Whether a sentence-boundary retraction occurs at the iteration whose
window begins at `start`. -/
def retractedAt (t : Text) (cs start : ℕ) : Bool :=
  let e0 := start + cs
  if e0 < t.length then
    match rfindIdx t '.' start e0 with
    | some se => decide (cs + 2 * start < 2 * se)
    | none => false
  else false

/-- The `while start < len(text)` loop of `chunk_text`, with fuel.
`none` models a non-terminating run.  A chunk is appended only when the
stripped window text is non-empty, and `chunk_id` is incremented only then. -/
def chunkLoop (t : Text) (cs ov : ℕ) : ℕ → ℕ → ℕ → Option (List Chunk)
  | 0, start, _ => if start < t.length then none else some []
  | fuel + 1, start, cid =>
    if start < t.length then
      let e := chunkEnd t cs start
      let ctext := strip (pySlice t start e)
      if ctext.isEmpty then chunkLoop t cs ov fuel (nextStart t cs ov start) cid
      else
        (chunkLoop t cs ov fuel (nextStart t cs ov start) (cid + 1)).map
          (fun rest => Chunk.mk ctext cid start e (some ctext.length) none none none none :: rest)
    else some []

/-- Model of `PDFProcessor.chunk_text`.  The short-text branch returns the single
unstripped chunk dict (which has no `char_count` key); otherwise the loop
runs with fuel `len(text) + 1`, enough for any terminating run since the
start index strictly increases while below `len(text)`. -/
def chunk_text (t : Text) (cs ov : ℕ) : Option (List Chunk) :=
  if t.isEmpty || t.length < cs then
    some [Chunk.mk t 0 0 t.length none none none none none]
  else chunkLoop t cs ov (t.length + 1) 0 0

/-- Normalized text, the shape produced by `_clean_text` (`re.sub(r'\s+', ' ', ...)`
plus `strip()`): no two adjacent characters are both whitespace. -/
def noTwoSpaces : Text → Bool
  | [] => true
  | [_] => true
  | a :: b :: rest => !(isSpaceChar a && isSpaceChar b) && noTwoSpaces (b :: rest)

/-- A normalized document text: whitespace runs collapsed and ends stripped. -/
def isNormalized (t : Text) : Bool :=
  noTwoSpaces t &&
  (match t with | [] => true | c :: _ => !isSpaceChar c) &&
  (match t.getLast? with | none => true | some c => !isSpaceChar c)

/-- Reconstruction from the raw window substrings recorded in the chunk
offsets: each chunk contributes `text[start_char:end_char]` with the part
before position `p` (already produced by earlier chunks) removed. -/
def reconWindows (t : Text) : List Chunk → ℕ → Text
  | [], _ => []
  | c :: rest, p =>
    pySlice t (max c.start_char p) (min c.end_char t.length) ++
      reconWindows t rest (min c.end_char t.length)

/-- Reconstruction from the *stored* chunk texts: each later chunk drops the
`prev_end - start_char` characters that overlap the previous chunk. -/
def reconStoredAux (p : ℕ) : List Chunk → Text
  | [] => []
  | c :: rest => c.text.drop (p - c.start_char) ++ reconStoredAux c.end_char rest

def reconStored : List Chunk → Text
  | [] => []
  | c :: rest => c.text ++ reconStoredAux c.end_char rest

/-! Section: Keyword search (`DocumentSearch`, pdf_processor.py lines 178-232) -/

/-- A search-result dict.  `keyword_search` returns `{**chunk, relevance_score,
match_preview}`; semantic results instead carry `similarity_score`; the chunk's
own fields are modelled by the embedded `chunk`.  `search_term` is the key
added later by `find_relevant_content`. -/
structure SearchResult where
  chunk : Chunk
  relevance_score : Option ℚ
  similarity_score : Option ℚ
  match_preview : Option Text
  search_term : Option Text
deriving DecidableEq

/-- The sort key of `keyword_search`: `x["relevance_score"]` (always present
on keyword results; `0` is an unreachable default for the model's totality). -/
def resultScore (r : SearchResult) : ℚ := r.relevance_score.getD 0

/-- The sort key of `_deduplicate_results`:
`x.get('similarity_score', x.get('relevance_score', 0))`. -/
def dedupScore (r : SearchResult) : ℚ :=
  r.similarity_score.getD (r.relevance_score.getD 0)

/-- Model of `DocumentSearch._get_match_preview`: an excerpt of `preview_length`
characters centred on the first (case-insensitive) occurrence of the query,
with ellipsis markers when truncated at either edge. -/
def get_match_preview (text query : Text) (preview_length : ℕ) : Text :=
  match findSub (lower query) (lower text) with
  | none => if preview_length < text.length then text.take preview_length ++ "...".data else text
  | some pos =>
    let s := pos - preview_length / 2
    let e := min text.length (pos + query.length + preview_length / 2)
    let core := pySlice text s e
    let core2 := if 0 < s then "...".data ++ core else core
    if e < text.length then core2 ++ "...".data else core2

/-- The result record built for a matching chunk: relevance score
`text_lower.count(query_lower) / len(chunk["text"].split())` (a float in
Python, modelled as the rational `mkRat`), plus the match preview. -/
def searchHit (query : Text) (c : Chunk) : SearchResult :=
  SearchResult.mk c
    (some (mkRat (countOcc (lower query) (lower c.text)) (wordCount c.text)))
    none
    (some (get_match_preview c.text query 200))
    none

/-- Stable insertion used to model Python's stable `list.sort(key=...,
reverse=True)`: a new element goes after all existing elements with an equal
or larger key. -/
def insDescAfter {α : Type} (key : α → ℚ) (x : α) : List α → List α
  | [] => [x]
  | y :: ys => if key y < key x then x :: y :: ys else y :: insDescAfter key x ys

/-- Python's stable descending sort: elements are inserted in list order,
each after its equals, so ties keep their original relative order. -/
def sortDesc {α : Type} (key : α → ℚ) (l : List α) : List α :=
  l.foldl (fun acc x => insDescAfter key x acc) []

/-- A second, independent realisation of a stable descending sort (used on the
specification side): building from the right, each element goes before its
equals, which are all later in the original list. -/
def insDescBefore {α : Type} (key : α → ℚ) (x : α) : List α → List α
  | [] => [x]
  | y :: ys => if key y ≤ key x then x :: y :: ys else y :: insDescBefore key x ys

def sortSpecDesc {α : Type} (key : α → ℚ) (l : List α) : List α :=
  l.foldr (insDescBefore key) []

/-- Model of `DocumentSearch.keyword_search` (pdf_processor.py lines 194-212): collect a
result for every chunk whose lowercased text contains the lowercased query,
sort by relevance score descending (stable) and truncate to `max_results`. -/
def keyword_search (query : Text) (chunks : List Chunk) (max_results : ℕ) : List SearchResult :=
  let hits := chunks.foldl
    (fun acc c =>
      acc ++ (if containsSub (lower query) (lower c.text) then [searchHit query c] else []))
    []
  (sortDesc resultScore hits).take max_results

/-- Specification-side description of the matches, following the claim's
words: the chunks whose lowercased text contains the lowercased query, in
original flattened order, each scored by occurrence count over word count. -/
def scoredMatches (query : Text) (chunks : List Chunk) : List SearchResult :=
  chunks.filterMap
    (fun c => if containsSub (lower query) (lower c.text) then some (searchHit query c) else none)

/-! Section: Corpus and knowledge base (`knowledge_base.py`) -/

/-- The per-document value of `processed_docs` (the `metadata` sub-dict is
never touched by the operations under study and is not modelled). -/
structure DocData where
  chunks : List Chunk
  chunk_count : ℕ
deriving DecidableEq

/-- Model of `processed_docs`: an insertion-ordered dict from document name to its data. -/
abbrev Corpus := List (Text × DocData)

/-- The in-place dict mutation `chunk["document_name"] = doc_name` performed by
`_flatten_chunks`: every other field is preserved. -/
def setDocName (name : Text) (c : Chunk) : Chunk :=
  Chunk.mk c.text c.chunk_id c.start_char c.end_char c.char_count
    c.source_file c.source_title c.total_pages (some name)

/-- Model of `DocumentSearch._flatten_chunks` (pdf_processor.py lines 185-192).  The
Python loop mutates each chunk dict in place while appending it to the flat
list; the pure model therefore returns both the post-mutation corpus and the
flat list (which alias in Python). -/
def flatten_chunks (docs : Corpus) : Corpus × List Chunk :=
  docs.foldl
    (fun acc p =>
      let mutated := p.2.chunks.map (setDocName p.1)
      (acc.1 ++ [(p.1, DocData.mk mutated p.2.chunk_count)], acc.2 ++ mutated))
    ([], [])

/-- The `DocumentSearch` object: it keeps the corpus it was built from and the
flattened chunk list. -/
structure DocumentSearch where
  processed_docs : Corpus
  chunks : List Chunk
deriving DecidableEq

/-- Model of `DocumentSearch.__init__`: stores the corpus and flattens it (mutating the
corpus's chunk dicts in the process, hence the post-mutation corpus). -/
def mkDocumentSearch (docs : Corpus) : DocumentSearch :=
  DocumentSearch.mk (flatten_chunks docs).1 (flatten_chunks docs).2

/-- The mutable state of `KnowledgeBase` relevant to the claims: the in-memory
corpus and the keyword-search index. -/
structure KnowledgeBaseState where
  processed_docs : Corpus
  document_search : Option DocumentSearch
deriving DecidableEq

/-- Model of `KnowledgeBase.build_knowledge_base` (knowledge_base.py lines 79-108).
`ingested` models the outcome of `process_all_pdfs` (an exception or a
corpus); `saveOk` models whether `_save_cache` succeeds.  On the success path
Python runs `self.processed_docs = processed_docs` and then
`DocumentSearch(processed_docs)`, whose constructor mutates the shared dicts,
so the stored corpus is the post-mutation one.  The vector-database step
catches all its own exceptions and cannot alter these two fields. -/
def build_knowledge_base (s : KnowledgeBaseState) (ingested : Except Unit Corpus)
    (saveOk : Corpus → Bool) : Bool × KnowledgeBaseState :=
  match ingested with
  | Except.error _ => (false, s)
  | Except.ok docs =>
    if docs.isEmpty then (false, s)
    else if saveOk docs then
      (true, KnowledgeBaseState.mk (mkDocumentSearch docs).processed_docs
        (some (mkDocumentSearch docs)))
    else (false, s)

/-- The fields of `VectorDatabase` that `is_available` inspects. -/
structure VectorDatabase where
  embeddings_available : Bool
  client : Option Unit
  collection : Option Unit
  embeddings_model : Option Unit
deriving DecidableEq

/-- Model of `VectorDatabase.is_available` (vector_db.py lines 73-78). -/
def is_available (v : VectorDatabase) : Bool :=
  v.embeddings_available && v.client.isSome && v.collection.isSome && v.embeddings_model.isSome

/-- Model of `KnowledgeBase.search` (knowledge_base.py lines 110-119).  `semanticResults`
models `self.vector_db.semantic_search` as an oracle; it is consulted only when
the mode is `semantic` and the vector database is available.  The `none` case of
`document_search` cannot occur together with a non-empty corpus in the program
(Python would raise `AttributeError`); the model returns `[]` there. -/
def kb_search (s : KnowledgeBaseState) (vdb : VectorDatabase)
    (semanticResults : Text → ℕ → List SearchResult)
    (query search_type : Text) (max_results : ℕ) : List SearchResult :=
  if s.processed_docs.isEmpty then []
  else if search_type == "semantic".data && is_available vdb then
    semanticResults query max_results
  else
    match s.document_search with
    | some ds => keyword_search query ds.chunks max_results
    | none => []

/-! Section: Relevant-content search (`knowledge_base.py` lines 186-250) -/

/-- The fixed Dell product/technology vocabulary of `_extract_search_terms`. -/
def dell_terms : List Text :=
  ["vxrail".data, "powerstore".data, "powerflex".data, "powerscale".data,
   "prosupport".data, "vmware".data, "hci".data, "hyperconverged".data,
   "storage".data, "compute".data, "virtualization".data, "cloud".data,
   "backup".data, "replication".data, "ai".data, "ml".data]

/-- The stop-word list of `_extract_search_terms`. -/
def stop_words : List Text :=
  ["that".data, "this".data, "with".data, "from".data, "they".data,
   "have".data, "been".data, "will".data, "would".data, "could".data,
   "should".data]

/-- Model of `KnowledgeBase._extract_search_terms` up to (but not including) the final
`list(set(found_terms))`: vocabulary terms present as substrings of the
lowercased input, followed by up to 10 input tokens longer than 4 characters
that are not stop words. -/
def extract_found_terms (t : Text) : List Text :=
  let tl := lower t
  let found := dell_terms.filter (fun term => containsSub term tl)
  let important :=
    ((pySplit tl).filter (fun w => decide (4 < w.length) && !(stop_words.contains w))).take 10
  found ++ important

/-- Characterisation of Python's `list(set(base))`: `out` is a duplicate-free
enumeration, in unspecified order, of the distinct elements of `base`. -/
abbrev SetOrderOf (base out : List Text) : Prop :=
  out.Nodup ∧ out ~ base.dedup

/-- The dedup key of `_deduplicate_results`:
`f"{result.get('source_file','')}_{...chunk_id...}"` (keyword results carry
`chunk_id` at top level). -/
def resKey (r : SearchResult) : Text :=
  (r.chunk.source_file.getD []) ++ ('_' :: (Nat.repr r.chunk.chunk_id).data)

/-- The first-occurrence filter of `_deduplicate_results`, with the `seen` set
modelled as the list of keys already kept. -/
def dedupAux (seen : List Text) : List SearchResult → List SearchResult
  | [] => []
  | r :: rest =>
    if resKey r ∈ seen then dedupAux seen rest
    else r :: dedupAux (resKey r :: seen) rest

/-- Model of `KnowledgeBase._deduplicate_results`: drop duplicate chunk identities
(keeping first occurrences), then sort descending by the available score. -/
def dedup_results (rs : List SearchResult) : List SearchResult :=
  sortDesc dedupScore (dedupAux [] rs)

/-- The in-place tag `result["search_term"] = term`. -/
def tagTerm (term : Text) (r : SearchResult) : SearchResult :=
  SearchResult.mk r.chunk r.relevance_score r.similarity_score r.match_preview (some term)

/-- The mode chosen by `find_relevant_content`:
`"semantic" if self.vector_db.is_available() else "keyword"`. -/
def searchModeFor (vdb : VectorDatabase) : Text :=
  if is_available vdb then "semantic".data else "keyword".data

/-- The summary f-string of `find_relevant_content`; `len(set(...))` is the
number of distinct source files among the unique results. -/
def summaryText (unique : List SearchResult) : Text :=
  "Found ".data ++ (Nat.repr unique.length).data ++ " relevant chunks across ".data ++
    (Nat.repr ((unique.map (fun r => r.chunk.source_file.getD [])).dedup.length)).data ++
    " documents".data

/-- The dict returned by `find_relevant_content`. -/
structure FRCOutput where
  results : List SearchResult
  search_terms : List Text
  summary : Text
deriving DecidableEq

/-- The fan-out step of `find_relevant_content`: search each of the first 5
terms (max 3 results each), tagging every result with its term. -/
def frcAllResults (s : KnowledgeBaseState) (vdb : VectorDatabase)
    (semanticResults : Text → ℕ → List SearchResult) (terms : List Text) : List SearchResult :=
  (terms.take 5).foldl
    (fun acc t =>
      acc ++ (kb_search s vdb semanticResults t (searchModeFor vdb) 3).map (tagTerm t))
    []

/-- Model of `KnowledgeBase.find_relevant_content` (knowledge_base.py lines 186-209).
`terms` is the list produced by `list(set(found_terms))` inside
`_extract_search_terms`; its order is unspecified in Python, so it is passed
explicitly and constrained by `SetOrderOf` in the theorems. -/
def find_relevant_content (s : KnowledgeBaseState) (vdb : VectorDatabase)
    (semanticResults : Text → ℕ → List SearchResult)
    (notes : Text) (max_results : ℕ) (terms : List Text) : FRCOutput :=
  if (strip notes).isEmpty then
    FRCOutput.mk [] [] "No discovery notes provided".data
  else
    let unique := dedup_results (frcAllResults s vdb semanticResults terms)
    FRCOutput.mk (unique.take max_results) terms (summaryText unique)

/-- The chunk identities (dedup keys) of a result list. -/
def resultKeys (rs : List SearchResult) : List Text := rs.map resKey

/-! Section: Concrete inputs used by witnesses and counterexamples -/

/-- A chunk containing "PowerStore" three times among 100 whitespace words. -/
def psText : Text :=
  "PowerStore PowerStore PowerStore".data ++ (List.replicate 97 " a".data).flatten

def psChunk : Chunk := Chunk.mk psText 0 0 psText.length (some psText.length) none none none none

def helloChunk : Chunk := Chunk.mk "hello world".data 0 0 11 (some 11) none none none none

/-- A chunk over which two search terms score differently. -/
def c9Chunk : Chunk :=
  Chunk.mk "vxrail powerstore powerstore".data 0 0 28 (some 28) (some "d.pdf".data) none none none

def c9Corpus : Corpus := [("d.pdf".data, DocData.mk [c9Chunk] 1)]

/-- A knowledge base built from `c9Corpus` through the real build path. -/
def c9State : KnowledgeBaseState :=
  (build_knowledge_base (KnowledgeBaseState.mk [] none) (Except.ok c9Corpus) (fun _ => true)).2

/-- A vector database whose initialisation failed. -/
def noVdb : VectorDatabase := VectorDatabase.mk false none none none

/-- A trivial semantic-search oracle (never consulted in the scenarios used). -/
def semNone : Text → ℕ → List SearchResult := fun _ _ => []

def c9Notes : Text := "vxrail powerstore".data

def c9TermsA : List Text := ["vxrail".data, "powerstore".data, "ai".data]

def c9TermsB : List Text := ["powerstore".data, "vxrail".data, "ai".data]

def c6State : KnowledgeBaseState :=
  KnowledgeBaseState.mk [("a.pdf".data, DocData.mk [] 0)] none

def c8Chunk : Chunk := Chunk.mk "t".data 0 0 1 (some 1) none none none none

def c8Corpus : Corpus := [("d".data, DocData.mk [c8Chunk] 1)]

/-- The chunk list produced by `chunk_text` on `"ab. cd...."` with
`chunk_size = 5`, `overlap = 2`. -/
def c4Chunks : List Chunk :=
  [Chunk.mk "ab. c".data 0 0 5 (some 5) none none none none,
   Chunk.mk "cd..".data 1 3 8 (some 4) none none none none,
   Chunk.mk "....".data 2 6 11 (some 4) none none none none]

/-! Section: General lemmas about the list folds used by the embedding -/

theorem foldl_append_flatMap {α β : Type} (f : α → List β) :
    ∀ (l : List α) (acc : List β),
      l.foldl (fun a x => a ++ f x) acc = acc ++ l.flatMap f := by
  intro l
  induction l with
  | nil => intro acc; simp
  | cons x xs ih => intro acc; simp [ih, List.append_assoc]

theorem flatMap_if_singleton {α β : Type} (p : α → Bool) (g : α → β) :
    ∀ l : List α,
      (l.flatMap fun c => if p c then [g c] else []) =
        l.filterMap (fun c => if p c then some (g c) else none) := by
  intro l
  induction l with
  | nil => rfl
  | cons x xs ih =>
    by_cases h : p x = true <;> simp [h, ih]

theorem mem_dropWhile_of_not {p : Char → Bool} :
    ∀ {l : Text} {c : Char}, c ∈ l → p c = false → c ∈ l.dropWhile p := by
  intro l
  induction l with
  | nil => intro c h; cases h
  | cons a rest ih =>
    intro c hc hp
    by_cases ha : p a = true
    · rw [List.dropWhile_cons_of_pos ha]
      rcases List.mem_cons.mp hc with rfl | h
      · rw [ha] at hp; cases hp
      · exact ih h hp
    · rw [List.dropWhile_cons_of_neg ha]
      exact hc

theorem strip_ne_nil {l : Text} {c : Char} (hc : c ∈ l) (hp : isSpaceChar c = false) :
    (strip l).isEmpty = false := by
  have h1 : c ∈ l.dropWhile isSpaceChar := mem_dropWhile_of_not hc hp
  have h2 : c ∈ (l.dropWhile isSpaceChar).reverse := List.mem_reverse.mpr h1
  have h3 : c ∈ (l.dropWhile isSpaceChar).reverse.dropWhile isSpaceChar :=
    mem_dropWhile_of_not h2 hp
  have h4 : c ∈ strip l := List.mem_reverse.mpr h3
  cases hl : strip l with
  | nil => rw [hl] at h4; cases h4
  | cons a l2 => rfl

/-! Section: Python lower / word count lemmas -/

theorem pyLower_nonspace {c : Char} (h : isSpaceChar c = false) :
    isSpaceChar (pyLower c) = false := by
  rcases hf : asciiLowerPairs.find? (fun p => p.1 == c) with _ | p
  · simpa [pyLower, hf] using h
  · have hmem : p ∈ asciiLowerPairs := List.mem_of_find?_eq_some hf
    have hall : ∀ q ∈ asciiLowerPairs, isSpaceChar q.2 = false := by decide
    simpa [pyLower, hf] using hall p hmem

theorem pyLower_space {c : Char} (h : isSpaceChar c = true) : pyLower c = c := by
  rcases hf : asciiLowerPairs.find? (fun p => p.1 == c) with _ | p
  · simp [pyLower, hf]
  · have hmem : p ∈ asciiLowerPairs := List.mem_of_find?_eq_some hf
    have heq : (p.1 == c) = true := by
      have := List.find?_some hf
      simpa using this
    have hall : ∀ q ∈ asciiLowerPairs, isSpaceChar q.1 = false := by decide
    have hns : isSpaceChar p.1 = false := hall p hmem
    rw [eq_of_beq heq] at hns
    rw [hns] at h
    cases h

theorem leadsIn_mem : ∀ {p t : Text}, leadsIn p t = true → ∀ c ∈ p, c ∈ t := by
  intro p
  induction p with
  | nil => intro t _ c hc; cases hc
  | cons a ps ih =>
    intro t h c hc
    cases t with
    | nil => cases h
    | cons b ts =>
      simp only [leadsIn, Bool.and_eq_true] at h
      rcases List.mem_cons.mp hc with rfl | h2
      · exact List.mem_cons.mpr (Or.inl (eq_of_beq h.1))
      · exact List.mem_cons.mpr (Or.inr (ih h.2 c h2))

theorem containsSub_mem {p : Text} :
    ∀ {t : Text}, containsSub p t = true → ∀ c ∈ p, c ∈ t := by
  intro t
  induction t with
  | nil =>
    intro h c hc
    simp only [containsSub, List.isEmpty_iff] at h
    subst h; cases hc
  | cons b ts ih =>
    intro h c hc
    simp only [containsSub, Bool.or_eq_true] at h
    rcases h with h | h
    · exact leadsIn_mem h c hc
    · exact List.mem_cons.mpr (Or.inr (ih h c hc))

theorem wordCount_pos {t : Text} (h : ∃ c ∈ t, isSpaceChar c = false) :
    0 < wordCount t := by
  unfold wordCount
  induction t with
  | nil => rcases h with ⟨c, hc, _⟩; cases hc
  | cons a rest ih =>
    rcases h with ⟨c, hc, hcs⟩
    by_cases ha : isSpaceChar a = true
    · simp only [wordCountAux, ha, if_pos]
      apply ih
      rcases List.mem_cons.mp hc with rfl | h2
      · rw [ha] at hcs; cases hcs
      · exact ⟨c, h2, hcs⟩
    · have ha' : isSpaceChar a = false := by
        cases hv : isSpaceChar a
        · rfl
        · exact absurd hv ha
      simp only [wordCountAux, ha', Bool.false_eq_true, if_false]
      omega

/-! Section: Lemmas about the two stable descending sorts -/

theorem insDescAfter_perm {α : Type} (key : α → ℚ) (x : α) :
    ∀ l : List α, insDescAfter key x l ~ x :: l := by
  intro l
  induction l with
  | nil => exact List.Perm.refl _
  | cons y ys ih =>
    by_cases h : key y < key x
    · rw [insDescAfter, if_pos h]
    · rw [insDescAfter, if_neg h]
      calc y :: insDescAfter key x ys ~ y :: x :: ys := ih.cons y
        _ ~ x :: y :: ys := List.Perm.swap x y ys

theorem foldl_ins_perm {α : Type} (key : α → ℚ) :
    ∀ (l acc : List α), l.foldl (fun a y => insDescAfter key y a) acc ~ l ++ acc := by
  intro l
  induction l with
  | nil => intro acc; exact List.Perm.refl _
  | cons y ys ih =>
    intro acc
    simp only [List.foldl_cons]
    calc ys.foldl (fun a y => insDescAfter key y a) (insDescAfter key y acc)
        ~ ys ++ insDescAfter key y acc := ih _
      _ ~ ys ++ (y :: acc) := List.Perm.append_left ys (insDescAfter_perm key y acc)
      _ ~ y :: (ys ++ acc) := List.perm_middle

theorem sortDesc_perm {α : Type} (key : α → ℚ) (l : List α) : sortDesc key l ~ l := by
  have h := foldl_ins_perm key l []
  rw [List.append_nil] at h
  exact h

theorem insDescAfter_pairwise {α : Type} (key : α → ℚ) (x : α) :
    ∀ {l : List α}, List.Pairwise (fun a b => key b ≤ key a) l →
      List.Pairwise (fun a b => key b ≤ key a) (insDescAfter key x l) := by
  intro l
  induction l with
  | nil => intro _; simp [insDescAfter]
  | cons y ys ih =>
    intro h
    rcases List.pairwise_cons.mp h with ⟨hy, hys⟩
    by_cases hlt : key y < key x
    · rw [insDescAfter, if_pos hlt]
      refine List.pairwise_cons.mpr ⟨?_, h⟩
      intro z hz
      rcases List.mem_cons.mp hz with rfl | hz2
      · linarith
      · have := hy z hz2; linarith
    · rw [insDescAfter, if_neg hlt]
      refine List.pairwise_cons.mpr ⟨?_, ih hys⟩
      intro z hz
      have hz' : z = x ∨ z ∈ ys :=
        List.mem_cons.mp ((insDescAfter_perm key x ys).mem_iff.mp hz)
      rcases hz' with rfl | hz2
      · linarith
      · exact hy z hz2

theorem sortDesc_pairwise {α : Type} (key : α → ℚ) :
    ∀ (l acc : List α), List.Pairwise (fun a b => key b ≤ key a) acc →
      List.Pairwise (fun a b => key b ≤ key a)
        (l.foldl (fun a y => insDescAfter key y a) acc) := by
  intro l
  induction l with
  | nil => intro acc h; exact h
  | cons y ys ih => intro acc h; exact ih _ (insDescAfter_pairwise key y h)

theorem sortDesc_sorted {α : Type} (key : α → ℚ) (l : List α) :
    List.Pairwise (fun a b => key b ≤ key a) (sortDesc key l) :=
  sortDesc_pairwise key l [] List.Pairwise.nil

theorem ins_comm {α : Type} (key : α → ℚ) (x y : α) :
    ∀ acc : List α,
      insDescAfter key y (insDescBefore key x acc) =
        insDescBefore key x (insDescAfter key y acc) := by
  intro acc
  induction acc with
  | nil =>
    by_cases hxy : key x < key y
    · have hyx : ¬ key y ≤ key x := by linarith
      simp [insDescAfter, insDescBefore, hxy, hyx]
    · have hyx : key y ≤ key x := by linarith
      simp [insDescAfter, insDescBefore, hxy, hyx]
  | cons a as ih =>
    by_cases hax : key a ≤ key x <;> by_cases hay : key a < key y
    · by_cases hxy : key x < key y
      · have hyx : ¬ key y ≤ key x := by linarith
        simp [insDescAfter, insDescBefore, hax, hay, hxy, hyx]
      · have hyx : key y ≤ key x := by linarith
        simp [insDescAfter, insDescBefore, hax, hay, hxy, hyx]
    · have hxy : ¬ key x < key y := by linarith
      simp [insDescAfter, insDescBefore, hax, hay, hxy]
    · have hyx : ¬ key y ≤ key x := by linarith
      simp [insDescAfter, insDescBefore, hax, hay, hyx]
    · simp [insDescAfter, insDescBefore, hax, hay, ih]

theorem foldl_insAfter_insBefore {α : Type} (key : α → ℚ) :
    ∀ (l acc : List α) (x : α),
      l.foldl (fun a y => insDescAfter key y a) (insDescBefore key x acc) =
        insDescBefore key x (l.foldl (fun a y => insDescAfter key y a) acc) := by
  intro l
  induction l with
  | nil => intro acc x; rfl
  | cons y ys ih =>
    intro acc x
    simp only [List.foldl_cons]
    rw [ins_comm]
    exact ih (insDescAfter key y acc) x

theorem sortDesc_eq_sortSpecDesc {α : Type} (key : α → ℚ) :
    ∀ l : List α, sortDesc key l = sortSpecDesc key l := by
  intro l
  induction l with
  | nil => rfl
  | cons x xs ih =>
    show (x :: xs).foldl (fun a y => insDescAfter key y a) [] = _
    rw [List.foldl_cons]
    have h1 : insDescAfter key x [] = insDescBefore key x [] := rfl
    rw [h1, foldl_insAfter_insBefore]
    show insDescBefore key x (sortDesc key xs) = sortSpecDesc key (x :: xs)
    rw [ih]
    rfl

/-! Section: Bounds for the chunking loop -/

theorem chunkEnd_lb (t : Text) (cs s : ℕ) (h2 : 2 ≤ cs) : s + 2 ≤ chunkEnd t cs s := by
  simp only [chunkEnd]
  split
  · split
    · split <;> omega
    · omega
  · omega

theorem chunkEnd_gt (t : Text) (cs s : ℕ) (h1 : 0 < cs) : s < chunkEnd t cs s := by
  simp only [chunkEnd]
  split
  · split
    · split <;> omega
    · omega
  · omega

theorem chunkEnd_ov_lt (t : Text) (cs ov s : ℕ) (h1 : 0 < cs) (h3 : 2 * ov ≤ cs)
    (hlt : chunkEnd t cs s < t.length) : s + ov < chunkEnd t cs s := by
  revert hlt
  simp only [chunkEnd]
  split
  · split
    · split <;> (intro hlt; omega)
    · intro hlt; omega
  · intro hlt; omega

theorem chunkEnd_ge_ov (t : Text) (cs ov s : ℕ) (h3 : 2 * ov ≤ cs) :
    s + ov ≤ chunkEnd t cs s := by
  simp only [chunkEnd]
  split
  · split
    · split <;> omega
    · omega
  · omega

theorem nextStart_progress (t : Text) (cs ov s : ℕ) (h1 : 0 < cs) (h3 : 2 * ov ≤ cs)
    (hs : s < t.length) : s < nextStart t cs ov s := by
  simp only [nextStart]
  split
  · have := chunkEnd_ov_lt t cs ov s h1 h3 (by assumption)
    omega
  · omega

theorem chunkLoop_isSome (t : Text) (cs ov : ℕ) (h1 : 0 < cs) (h3 : 2 * ov ≤ cs) :
    ∀ (fuel s cid : ℕ), t.length - s ≤ fuel →
      (chunkLoop t cs ov fuel s cid).isSome = true := by
  intro fuel
  induction fuel with
  | zero =>
    intro s cid h
    rw [chunkLoop, if_neg (by omega)]
    rfl
  | succ fuel ih =>
    intro s cid h
    by_cases hs : s < t.length
    · have hp := nextStart_progress t cs ov s h1 h3 hs
      simp only [chunkLoop, if_pos hs]
      split
      · exact ih _ _ (by omega)
      · have h2' := ih (nextStart t cs ov s) (cid + 1) (by omega)
        cases hm : chunkLoop t cs ov fuel (nextStart t cs ov s) (cid + 1) with
        | none => rw [hm] at h2'; cases h2'
        | some v => rfl
    · rw [chunkLoop, if_neg hs]; rfl

theorem chunkLoop_at_end (t : Text) (cs ov : ℕ) (fuel s cid : ℕ) (hs : ¬ s < t.length) :
    chunkLoop t cs ov fuel s cid = some [] := by
  cases fuel with
  | zero => rw [chunkLoop, if_neg hs]
  | succ fuel => rw [chunkLoop, if_neg hs]

theorem chunk_text_isSome (t : Text) (cs ov : ℕ) (h1 : 0 < cs) (h3 : 2 * ov ≤ cs) :
    (chunk_text t cs ov).isSome = true := by
  unfold chunk_text
  split
  · rfl
  · exact chunkLoop_isSome t cs ov h1 h3 (t.length + 1) 0 0 (by omega)

/-! Section: Normalized texts: windows of the loop are never all-whitespace -/

theorem noTwoSpaces_pair :
    ∀ (t : Text), noTwoSpaces t = true → ∀ i, i + 1 < t.length →
      isSpaceChar (t.getD i ' ') = false ∨ isSpaceChar (t.getD (i + 1) ' ') = false := by
  intro t
  induction t with
  | nil => intro _ i hi; simp at hi
  | cons a rest ih =>
    intro h i hi
    cases rest with
    | nil => simp at hi
    | cons b rest2 =>
      simp only [noTwoSpaces, Bool.and_eq_true] at h
      cases i with
      | zero =>
        simp only [List.getD_cons_zero, List.getD_cons_succ]
        cases hsa : isSpaceChar a
        · exact Or.inl rfl
        · cases hsb : isSpaceChar b
          · exact Or.inr rfl
          · rw [hsa, hsb] at h; simp at h
      | succ j =>
        simp only [List.getD_cons_succ]
        exact ih h.2 j (by simpa using hi)

theorem getD_mem_pySlice (t : Text) (s e i : ℕ) (h1 : s ≤ i) (h2 : i < e) (h3 : i < t.length) :
    t.getD i ' ' ∈ pySlice t s e := by
  have h? : (pySlice t s e)[i - s]? = some (t.getD i ' ') := by
    simp only [pySlice, List.getElem?_drop]
    have hsi : s + (i - s) = i := by omega
    rw [hsi, List.getElem?_take]
    rw [if_pos h2, List.getElem?_eq_getElem h3, List.getD_eq_getElem t ' ' h3]
  exact List.getElem?_mem h?

theorem strip_window_nonempty (t : Text) (hn : isNormalized t = true) (s e : ℕ)
    (hs : s < t.length) (he : s + 2 ≤ e) :
    (strip (pySlice t s e)).isEmpty = false := by
  have hn' := hn
  simp only [isNormalized, Bool.and_eq_true] at hn'
  have hnt : noTwoSpaces t = true := hn'.1.1
  by_cases h2 : s + 1 < t.length
  · rcases noTwoSpaces_pair t hnt s h2 with h | h
    · exact strip_ne_nil (getD_mem_pySlice t s e s (le_refl s) (by omega) hs) h
    · exact strip_ne_nil (getD_mem_pySlice t s e (s + 1) (by omega) (by omega) h2) h
  · -- the window clamps to the single last character of `t`, which is not
    -- whitespace because `t` is normalized
    have hsl : s + 1 = t.length := by omega
    have hlast : t.getLast? = some (t.getD s ' ') := by
      rw [List.getLast?_eq_getElem? t]
      have : t.length - 1 = s := by omega
      rw [this, List.getElem?_eq_getElem hs, List.getD_eq_getElem t ' ' hs]
    have hns : isSpaceChar (t.getD s ' ') = false := by
      have := hn'.2
      rw [hlast] at this
      simpa using this
    exact strip_ne_nil (getD_mem_pySlice t s e s (le_refl s) (by omega) hs) hns

theorem pySlice_append (t : Text) (p e : ℕ) (hpe : p ≤ e) (hel : e ≤ t.length) :
    pySlice t p e ++ pySlice t e t.length = pySlice t p t.length := by
  simp only [pySlice, List.take_length]
  conv_rhs => rw [← List.take_append_drop e t]
  rw [List.drop_append_of_le_length (by simp [List.length_take]; omega)]

theorem chunkLoop_cons (t : Text) (cs ov fuel s cid : ℕ) (hs : s < t.length)
    (hne : (strip (pySlice t s (chunkEnd t cs s))).isEmpty = false) :
    chunkLoop t cs ov (fuel + 1) s cid =
      (chunkLoop t cs ov fuel (nextStart t cs ov s) (cid + 1)).map
        (fun rest =>
          Chunk.mk (strip (pySlice t s (chunkEnd t cs s))) cid s (chunkEnd t cs s)
            (some (strip (pySlice t s (chunkEnd t cs s))).length) none none none none :: rest) := by
  simp only [chunkLoop, if_pos hs]
  rw [if_neg (by rw [hne]; exact Bool.false_ne_true)]

/-- Master invariant of the chunking loop for normalized text and sane
parameters: the loop succeeds, emits a chunk for every window (none skipped),
assigns consecutive ordinals, maintains the overlap chain
`end_char = next start_char + overlap`, covers every remaining position, and
its raw windows reconstruct the remaining text. -/
theorem chunkLoop_master (t : Text) (cs ov : ℕ) (hn : isNormalized t = true)
    (h2 : 2 ≤ cs) (h3 : 2 * ov ≤ cs) :
    ∀ (fuel s cid : ℕ), s < t.length → t.length - s ≤ fuel →
      ∃ (c : Chunk) (rest : List Chunk),
        chunkLoop t cs ov fuel s cid = some (c :: rest) ∧
        c.start_char = s ∧ c.end_char = chunkEnd t cs s ∧
        (∀ i (hi : i < (c :: rest).length), ((c :: rest).get ⟨i, hi⟩).chunk_id = cid + i) ∧
        List.Chain' (fun a b => a.end_char = b.start_char + ov) (c :: rest) ∧
        (∀ q, s ≤ q → q < t.length → ∃ ch ∈ c :: rest, ch.start_char ≤ q ∧ q < ch.end_char) ∧
        (∀ p, s ≤ p → p ≤ chunkEnd t cs s → p ≤ t.length →
          reconWindows t (c :: rest) p = pySlice t p t.length) := by
  intro fuel
  induction fuel with
  | zero => intro s cid hs hf; omega
  | succ fuel ih =>
    intro s cid hs hf
    have h1 : 0 < cs := by omega
    have hprog : s < nextStart t cs ov s := nextStart_progress t cs ov s h1 h3 hs
    have hlb : s + 2 ≤ chunkEnd t cs s := chunkEnd_lb t cs s h2
    have hovle : s + ov ≤ chunkEnd t cs s := chunkEnd_ge_ov t cs ov s h3
    have hne : (strip (pySlice t s (chunkEnd t cs s))).isEmpty = false :=
      strip_window_nonempty t hn s (chunkEnd t cs s) hs hlb
    by_cases he : chunkEnd t cs s < t.length
    · -- interior window: the loop continues at `end - overlap`
      have hnext : nextStart t cs ov s = chunkEnd t cs s - ov := by
        simp only [nextStart]; rw [if_pos he]
      obtain ⟨c2, rest2, hloop2, hst2, hen2, hids2, hch2, hcov2, hrec2⟩ :=
        ih (nextStart t cs ov s) (cid + 1) (by omega) (by omega)
      refine ⟨Chunk.mk (strip (pySlice t s (chunkEnd t cs s))) cid s (chunkEnd t cs s)
        (some (strip (pySlice t s (chunkEnd t cs s))).length) none none none none,
        c2 :: rest2, ?_, rfl, rfl, ?_, ?_, ?_, ?_⟩
      · rw [chunkLoop_cons t cs ov fuel s cid hs hne, hloop2]; rfl
      · intro i hi
        cases i with
        | zero => simp
        | succ j =>
          have hj : j < (c2 :: rest2).length := by simpa using hi
          have hq := hids2 j hj
          simp only [List.get_cons_succ]
          omega
      · rw [List.chain'_cons]
        refine ⟨?_, hch2⟩
        show chunkEnd t cs s = c2.start_char + ov
        rw [hst2, hnext]
        omega
      · intro q hq1 hq2
        by_cases hqe : q < chunkEnd t cs s
        · exact ⟨_, List.mem_cons_self _ _, hq1, hqe⟩
        · obtain ⟨ch, hmem, hh1, hh2⟩ := hcov2 q (by omega) hq2
          exact ⟨ch, List.mem_cons_of_mem _ hmem, hh1, hh2⟩
      · intro p hp1 hp2 hp3
        have hx := chunkEnd_ge_ov t cs ov (nextStart t cs ov s) h3
        have hrec := hrec2 (chunkEnd t cs s) (by omega) (by omega) (le_of_lt he)
        rw [reconWindows]
        dsimp only
        rw [Nat.max_eq_right hp1, Nat.min_eq_left (le_of_lt he), hrec]
        exact pySlice_append t p (chunkEnd t cs s) hp2 (le_of_lt he)
    · -- final window: the loop stops after this chunk
      have hnext : nextStart t cs ov s = t.length := by
        simp only [nextStart]; rw [if_neg he]
      have hrest : chunkLoop t cs ov fuel (nextStart t cs ov s) (cid + 1) = some [] := by
        rw [hnext]; exact chunkLoop_at_end t cs ov fuel t.length (cid + 1) (by omega)
      refine ⟨Chunk.mk (strip (pySlice t s (chunkEnd t cs s))) cid s (chunkEnd t cs s)
        (some (strip (pySlice t s (chunkEnd t cs s))).length) none none none none,
        [], ?_, rfl, rfl, ?_, ?_, ?_, ?_⟩
      · rw [chunkLoop_cons t cs ov fuel s cid hs hne, hrest]; rfl
      · intro i hi
        cases i with
        | zero => simp
        | succ j => simp at hi
      · exact List.chain'_singleton _
      · intro q hq1 hq2
        exact ⟨_, List.mem_cons_self _ _, hq1, by show q < chunkEnd t cs s; omega⟩
      · intro p hp1 hp2 hp3
        rw [reconWindows]
        dsimp only
        rw [Nat.max_eq_right hp1, Nat.min_eq_right (by omega : t.length ≤ chunkEnd t cs s)]
        rw [reconWindows, List.append_nil]

theorem pySlice_zero_length (t : Text) : pySlice t 0 t.length = t := by
  simp [pySlice]

/-- The chunk list of `chunk_text` on normalized text with `2 ≤ chunk_size`
and `2 * overlap ≤ chunk_size`: ordinals are `0, 1, 2, …`, consecutive chunks
satisfy `end_char = next start_char + overlap`, every position is covered and
the raw windows reconstruct the text. -/
theorem chunk_text_master (t : Text) (cs ov : ℕ) (hn : isNormalized t = true)
    (h2 : 2 ≤ cs) (h3 : 2 * ov ≤ cs) :
    ∃ chunks, chunk_text t cs ov = some chunks ∧
      (∀ i (hi : i < chunks.length), (chunks.get ⟨i, hi⟩).chunk_id = i) ∧
      List.Chain' (fun a b => a.end_char = b.start_char + ov) chunks ∧
      (∀ q, q < t.length → ∃ ch ∈ chunks, ch.start_char ≤ q ∧ q < ch.end_char) ∧
      reconWindows t chunks 0 = t := by
  unfold chunk_text
  split
  · -- short-text branch: a single chunk spanning the whole text
    refine ⟨[Chunk.mk t 0 0 t.length none none none none none], rfl, ?_, ?_, ?_, ?_⟩
    · intro i hi
      cases i with
      | zero => rfl
      | succ j => simp at hi
    · exact List.chain'_singleton _
    · intro q hq
      exact ⟨_, List.mem_cons_self _ _, by show (0:ℕ) ≤ q; omega, by show q < t.length; omega⟩
    · rw [reconWindows]
      dsimp only
      rw [reconWindows, List.append_nil]
      simp [pySlice]
  · -- loop branch
    rename_i hguard
    have hcs0 : ¬ (t.isEmpty = true) ∧ ¬ (t.length < cs) := by
      constructor <;> intro hx <;> apply hguard <;> simp [hx]
    have hlen0 : 0 < t.length := by
      rcases hcs0 with ⟨hx, _⟩
      cases t with
      | nil => exact absurd rfl hx
      | cons a l => simp
    obtain ⟨c, rest, hloop, hst, hen, hids, hch, hcov, hrec⟩ :=
      chunkLoop_master t cs ov hn h2 h3 (t.length + 1) 0 0 hlen0 (by omega)
    refine ⟨c :: rest, hloop, ?_, hch, fun q hq => hcov q (by omega) hq, ?_⟩
    · intro i hi
      have := hids i hi
      omega
    · have := hrec 0 (by omega) (by omega) (by omega)
      rw [this, pySlice_zero_length]

/-- Claim C3, as stated: for every text, every chunk size above 0 and every
overlap, each iteration of the chunking loop advances the window start, and
the procedure terminates.  Refuted at text `"ab"`, `chunk_size = 1`,
`overlap = 1`, where the start stays at 0 forever. -/
theorem chunk_progress_cex :
    ¬ (∀ (t : Text) (cs ov : ℕ), 0 < cs →
        (∀ s, s < t.length → s < nextStart t cs ov s) ∧
        (chunk_text t cs ov).isSome = true) := by
  intro h
  have := (h "ab".data 1 1 (by decide)).1 0 (by decide)
  exact absurd this (by decide)

/-- Claim C3 (amended): when additionally `2 * overlap ≤ chunk_size` (satisfied
by the defaults 1000/200), every loop iteration advances the window start by at
least one character net of the overlap, and the chunking procedure terminates. -/
theorem chunk_progress_amended (t : Text) (cs ov : ℕ) (h1 : 0 < cs) (h3 : 2 * ov ≤ cs) :
    (∀ s, s < t.length → s < nextStart t cs ov s) ∧
    (chunk_text t cs ov).isSome = true :=
  ⟨fun s hs => nextStart_progress t cs ov s h1 h3 hs, chunk_text_isSome t cs ov h1 h3⟩

theorem chunk_progress_amended_witness :
    0 < 5 ∧ 2 * 2 ≤ 5 ∧
    ((∀ s, s < "hello there world".data.length → s < nextStart "hello there world".data 5 2 s) ∧
      (chunk_text "hello there world".data 5 2).isSome = true) :=
  ⟨by decide, by decide, chunk_progress_amended "hello there world".data 5 2 (by decide) (by decide)⟩

/-- Claim C4, as stated: for normalized text the emitted chunks cover every
character position and the *stored* chunk texts, after removing overlapping
prefixes, reconstruct the text.  Refuted on `"ab. cd...."` with
`chunk_size = 5`, `overlap = 2`: the stored texts are stripped
(`" cd.."` is stored as `"cd.."`), so reconstruction loses the boundary
whitespace and yields `"ab. c...."`. -/
theorem chunk_coverage_cex :
    ¬ (∀ (t : Text) (cs ov : ℕ) (chunks : List Chunk), isNormalized t = true → 0 < cs →
        chunk_text t cs ov = some chunks →
        ((∀ q, q < t.length → ∃ ch ∈ chunks, ch.start_char ≤ q ∧ q < ch.end_char) ∧
          reconStored chunks = t)) := by
  intro h
  rcases hc : chunk_text "ab. cd....".data 5 2 with _ | chunks
  · exact absurd hc (by decide)
  · have hd : chunk_text "ab. cd....".data 5 2 = some c4Chunks := by decide
    rw [hc] at hd
    have hL := Option.some_inj.mp hd
    have := (h "ab. cd....".data 5 2 chunks (by decide) (by decide) hc).2
    rw [hL] at this
    exact absurd this (by decide)

/-- Claim C4 (amended): for normalized text, `2 ≤ chunk_size` and
`2 * overlap ≤ chunk_size` (satisfied by the defaults), chunking terminates,
the chunks cover every character position, and concatenating the *raw window
substrings* `text[start_char:end_char]` after removing overlapping prefixes
reconstructs the text losslessly (the stored texts differ from the windows
only by the stripped boundary whitespace). -/
theorem chunk_coverage_amended (t : Text) (cs ov : ℕ) (hn : isNormalized t = true)
    (h2 : 2 ≤ cs) (h3 : 2 * ov ≤ cs) :
    ∃ chunks, chunk_text t cs ov = some chunks ∧
      (∀ q, q < t.length → ∃ ch ∈ chunks, ch.start_char ≤ q ∧ q < ch.end_char) ∧
      reconWindows t chunks 0 = t := by
  obtain ⟨chunks, hc, _, _, hcov, hrec⟩ := chunk_text_master t cs ov hn h2 h3
  exact ⟨chunks, hc, hcov, hrec⟩

theorem chunk_coverage_amended_witness :
    isNormalized "ab. cd....".data = true ∧ 2 ≤ 5 ∧ 2 * 2 ≤ 5 ∧
    chunk_text "ab. cd....".data 5 2 = some c4Chunks ∧
    (∀ q, q < "ab. cd....".data.length →
      ∃ ch ∈ c4Chunks, ch.start_char ≤ q ∧ q < ch.end_char) ∧
    reconWindows "ab. cd....".data c4Chunks 0 = "ab. cd....".data := by
  obtain ⟨chunks, hc, hcov, hrec⟩ :=
    chunk_coverage_amended "ab. cd....".data 5 2 (by decide) (by decide) (by decide)
  have hL : chunks = c4Chunks := by
    have hd : chunk_text "ab. cd....".data 5 2 = some c4Chunks := by decide
    rw [hc] at hd
    exact Option.some_inj.mp hd
  subst hL
  exact ⟨by decide, by decide, by decide, hc, hcov, hrec⟩

/-- Claim C5, as stated: for every input and parameters, each non-final chunk
satisfies `end_char(chunk[i]) - start_char(chunk[i+1]) ∈ [0, overlap]` unless a
sentence-boundary retraction occurred, and ordinals are `0, 1, 2, …`.  Refuted
at text `"a b"`, `chunk_size = 1`, `overlap = 0`: the all-whitespace middle
window is skipped, leaving chunks `[0,1)` and `[2,3)` with a gap
(`end_char 1 < start_char 2`) and no retraction. -/
theorem chunk_overlap_cex :
    ¬ (∀ (t : Text) (cs ov : ℕ) (chunks : List Chunk), chunk_text t cs ov = some chunks →
        (∀ i (hi : i + 1 < chunks.length),
          (((chunks.get ⟨i + 1, hi⟩).start_char ≤ (chunks.get ⟨i, by omega⟩).end_char ∧
            (chunks.get ⟨i, by omega⟩).end_char ≤ (chunks.get ⟨i + 1, hi⟩).start_char + ov) ∨
            retractedAt t cs (chunks.get ⟨i, by omega⟩).start_char = true)) ∧
        (∀ i (hi : i < chunks.length), (chunks.get ⟨i, hi⟩).chunk_id = i)) := by
  intro h
  rcases hc : chunk_text "a b".data 1 0 with _ | chunks
  · exact absurd hc (by decide)
  · have hd : chunk_text "a b".data 1 0 =
        some [Chunk.mk "a".data 0 0 1 (some 1) none none none none,
              Chunk.mk "b".data 1 2 3 (some 1) none none none none] := by decide
    rw [hc] at hd
    have hL := Option.some_inj.mp hd
    subst hL
    have := (h "a b".data 1 0 _ hc).1 0 (by decide)
    exact absurd this (by decide)

/-- Claim C5 (amended): for normalized text, `2 ≤ chunk_size` and
`2 * overlap ≤ chunk_size` (satisfied by the defaults), every non-final chunk
satisfies `end_char(chunk[i]) = start_char(chunk[i+1]) + overlap` — so the
difference is exactly `overlap`, in `[0, overlap]` — and chunk ordinals are
assigned `0, 1, 2, …` with no gaps. -/
theorem chunk_overlap_amended (t : Text) (cs ov : ℕ) (chunks : List Chunk)
    (hn : isNormalized t = true) (h2 : 2 ≤ cs) (h3 : 2 * ov ≤ cs)
    (hc : chunk_text t cs ov = some chunks) :
    (∀ i (hi : i + 1 < chunks.length),
      (chunks.get ⟨i, by omega⟩).end_char = (chunks.get ⟨i + 1, hi⟩).start_char + ov) ∧
    (∀ i (hi : i < chunks.length), (chunks.get ⟨i, hi⟩).chunk_id = i) := by
  obtain ⟨chunks', hc', hids, hch, _, _⟩ := chunk_text_master t cs ov hn h2 h3
  rw [hc] at hc'
  have hL := Option.some_inj.mp hc'
  subst hL
  exact ⟨fun i hi => List.chain'_iff_get.mp hch i (by omega), hids⟩

theorem chunk_overlap_amended_witness :
    isNormalized "ab. cd....".data = true ∧
    chunk_text "ab. cd....".data 5 2 = some c4Chunks ∧
    (∀ i (hi : i + 1 < c4Chunks.length),
      (c4Chunks.get ⟨i, by omega⟩).end_char = (c4Chunks.get ⟨i + 1, hi⟩).start_char + 2) ∧
    (∀ i (hi : i < c4Chunks.length), (c4Chunks.get ⟨i, hi⟩).chunk_id = i) :=
  ⟨by decide, by decide,
    (chunk_overlap_amended "ab. cd....".data 5 2 c4Chunks
      (by decide) (by decide) (by decide) (by decide)).1,
    (chunk_overlap_amended "ab. cd....".data 5 2 c4Chunks
      (by decide) (by decide) (by decide) (by decide)).2⟩

/-! Section: Keyword search claims -/

/-- Justification of the score model: `mkRat` agrees with rational division whenever the denominator is nonzero,
justifying the modelling of Python's float score `a / b` by `mkRat a b`. -/
theorem mkRat_eq_cast_div (a b : ℕ) : mkRat a b = (a : ℚ) / (b : ℚ) := by
  rw [Rat.mkRat_eq_div]
  norm_num

/-- Claim C1: for a non-empty query, `keyword_search` returns exactly the
chunks whose lowercased text contains the lowercased query, in relevance order
— the list equals the claim-side `scoredMatches` (matching chunks in flattened
order, scored by occurrence count over word count) sorted by the independent
stable descending sort `sortSpecDesc` and truncated to `max_results` — and the
returned list is sorted by non-increasing relevance score. -/
theorem keyword_search_spec (chunks : List Chunk) (q : Text) (m : ℕ) (hq : q ≠ []) :
    keyword_search q chunks m = (sortSpecDesc resultScore (scoredMatches q chunks)).take m ∧
    List.Pairwise (fun a b => resultScore b ≤ resultScore a) (keyword_search q chunks m) := by
  have hmatch : chunks.foldl
      (fun acc c =>
        acc ++ (if containsSub (lower q) (lower c.text) then [searchHit q c] else []))
      [] = scoredMatches q chunks := by
    rw [foldl_append_flatMap, List.nil_append,
      flatMap_if_singleton (fun c => containsSub (lower q) (lower c.text)) (searchHit q)]
    rfl
  constructor
  · show (sortDesc resultScore (chunks.foldl
      (fun acc c =>
        acc ++ (if containsSub (lower q) (lower c.text) then [searchHit q c] else []))
      [])).take m = _
    rw [hmatch, sortDesc_eq_sortSpecDesc]
  · show List.Pairwise _ ((sortDesc resultScore (chunks.foldl
      (fun acc c =>
        acc ++ (if containsSub (lower q) (lower c.text) then [searchHit q c] else []))
      [])).take m)
    exact (sortDesc_sorted resultScore _).sublist (List.take_sublist m _)

set_option maxRecDepth 8000 in
theorem keyword_search_spec_witness :
    "powerstore".data ≠ [] ∧
    (keyword_search "powerstore".data [psChunk] 5).map
      (fun r => (r.chunk.chunk_id, r.relevance_score)) = [(0, some (mkRat 3 100))] ∧
    (keyword_search "powerstore".data [psChunk] 5 =
      (sortSpecDesc resultScore (scoredMatches "powerstore".data [psChunk])).take 5 ∧
      List.Pairwise (fun a b => resultScore b ≤ resultScore a)
        (keyword_search "powerstore".data [psChunk] 5)) :=
  ⟨by decide, by decide, keyword_search_spec [psChunk] "powerstore".data 5 (by decide)⟩

/-- Claim C2: the empty query should return no results, but the code's
membership test `"" in text` is vacuously true, so every chunk matches: on a
corpus holding the single chunk `"hello world"`, `keyword_search("")` returns
that chunk (scored `count("") / 2 = 12 / 2 = 6`), not the empty list. -/
theorem empty_query_returns_chunk :
    keyword_search [] [helloChunk] 5 =
      [SearchResult.mk helloChunk (some (mkRat 12 2)) none (some "hello world".data) none] ∧
    keyword_search [] [helloChunk] 5 ≠ [] := by
  constructor
  · decide
  · decide

/-- Claim C10, as stated: any chunk whose lowercased text contains a non-empty
lowercased query has a positive whitespace-word count.  Refuted by the
all-whitespace chunk text `" "` with query `" "`: the query occurs, but
`len(" ".split()) = 0`, so the score division in `keyword_search` divides by
zero (a `ZeroDivisionError` in Python). -/
theorem score_divisor_cex :
    ¬ (∀ (q t : Text), q ≠ [] → containsSub (lower q) (lower t) = true →
        0 < wordCount t) := by
  intro h
  exact absurd (h " ".data " ".data (by decide) (by decide)) (by decide)

/-- Claim C10 (amended): for any query containing at least one non-whitespace
character, every chunk text containing the lowercased query has a positive
whitespace-word count, so the divisor of the score division in
`keyword_search` is positive for every chunk that reaches the scoring step. -/
theorem score_divisor_amended (q t : Text) (hq : ∃ c ∈ q, isSpaceChar c = false)
    (h : containsSub (lower q) (lower t) = true) : 0 < wordCount t := by
  rcases hq with ⟨c, hc, hcs⟩
  have h1 : pyLower c ∈ lower q := List.mem_map_of_mem _ hc
  have h2 : pyLower c ∈ lower t := containsSub_mem h _ h1
  rcases List.mem_map.mp h2 with ⟨d, hd, hde⟩
  apply wordCount_pos
  refine ⟨d, hd, ?_⟩
  cases hds : isSpaceChar d
  · rfl
  · exfalso
    have hplc : isSpaceChar (pyLower c) = false := pyLower_nonspace hcs
    have hsp : isSpaceChar (pyLower d) = true := by
      rw [pyLower_space hds]
      exact hds
    rw [hde, hplc] at hsp
    cases hsp

theorem score_divisor_amended_witness :
    (∃ c ∈ "Cloud".data, isSpaceChar c = false) ∧
    containsSub (lower "Cloud".data) (lower "my cloud setup".data) = true ∧
    0 < wordCount "my cloud setup".data :=
  ⟨by decide, by decide,
    score_divisor_amended "Cloud".data "my cloud setup".data (by decide) (by decide)⟩

/-! Section: Knowledge-base claims -/

/-- Claim C6: `build_knowledge_base` is all-or-nothing for the in-memory
corpus and the keyword-search index: on any failure (ingestion raised,
ingestion produced no documents, or the cache write failed) the state is
returned exactly as it was, and the state changes only when ingestion
succeeded with a non-empty corpus and the cache write succeeded. -/
theorem build_failure_isolation (s : KnowledgeBaseState) (ing : Except Unit Corpus)
    (saveOk : Corpus → Bool) :
    ((build_knowledge_base s ing saveOk).1 = false →
      (build_knowledge_base s ing saveOk).2 = s) ∧
    ((build_knowledge_base s ing saveOk).2 ≠ s →
      (build_knowledge_base s ing saveOk).1 = true ∧
        ∃ docs, ing = Except.ok docs ∧ docs.isEmpty = false ∧ saveOk docs = true) := by
  rcases ing with e | docs
  · exact ⟨fun _ => rfl, fun hne => absurd rfl hne⟩
  · by_cases hd : docs.isEmpty = true
    · constructor
      · intro _
        simp [build_knowledge_base, hd]
      · intro hne
        exfalso
        apply hne
        simp [build_knowledge_base, hd]
    · have hd' : docs.isEmpty = false := by
        cases hv : docs.isEmpty
        · rfl
        · exact absurd hv hd
      by_cases hsv : saveOk docs = true
      · constructor
        · intro hf
          exfalso
          simp [build_knowledge_base, hd, hsv] at hf
        · intro _
          exact ⟨by simp [build_knowledge_base, hd, hsv], docs, rfl, hd', hsv⟩
      · constructor
        · intro _
          simp [build_knowledge_base, hd, hsv]
        · intro hne
          exfalso
          apply hne
          simp [build_knowledge_base, hd, hsv]

theorem build_failure_isolation_witness :
    (build_knowledge_base c6State (Except.error ()) (fun _ => true)).1 = false ∧
    (build_knowledge_base c6State (Except.error ()) (fun _ => true)).2 = c6State :=
  ⟨rfl, (build_failure_isolation c6State (Except.error ()) (fun _ => true)).1 rfl⟩

/-- Claim C7: on an initialized knowledge base whose vector index is
unavailable, a semantic-mode search returns exactly the keyword-mode result
for the same query and `max_results`. -/
theorem semantic_fallback_eq (s : KnowledgeBaseState) (vdb : VectorDatabase)
    (sem : Text → ℕ → List SearchResult) (q : Text) (m : ℕ)
    (hinit : s.processed_docs ≠ []) (hv : is_available vdb = false) :
    kb_search s vdb sem q "semantic".data m = kb_search s vdb sem q "keyword".data m := by
  simp [kb_search, hv, Bool.and_false]

theorem semantic_fallback_eq_witness :
    c9State.processed_docs ≠ [] ∧ is_available noVdb = false ∧
    kb_search c9State noVdb semNone "storage".data "semantic".data 5 =
      kb_search c9State noVdb semNone "storage".data "keyword".data 5 :=
  ⟨by decide, rfl,
    semantic_fallback_eq c9State noVdb semNone "storage".data 5 (by decide) rfl⟩

/-! Section: Flattening claims -/

/-- Claim C8, as stated: building the Keyword Index leaves the corpus's chunk
records exactly as they were.  Refuted: `_flatten_chunks` mutates every chunk
dict in place, adding a `document_name` key. -/
theorem flatten_pure_cex : ¬ (∀ docs : Corpus, (flatten_chunks docs).1 = docs) := by
  intro h
  exact absurd (h c8Corpus) (by decide)

theorem flatten_chunks_aux :
    ∀ (l : Corpus) (acc : Corpus × List Chunk),
      l.foldl
        (fun acc p =>
          let mutated := p.2.chunks.map (setDocName p.1)
          (acc.1 ++ [(p.1, DocData.mk mutated p.2.chunk_count)], acc.2 ++ mutated)) acc =
      (acc.1 ++ l.map (fun p => (p.1, DocData.mk (p.2.chunks.map (setDocName p.1)) p.2.chunk_count)),
       acc.2 ++ l.flatMap (fun p => p.2.chunks.map (setDocName p.1))) := by
  intro l
  induction l with
  | nil => intro acc; simp
  | cons x xs ih =>
    intro acc
    simp only [List.foldl_cons, ih, List.map_cons, List.flatMap_cons, List.append_assoc]
    simp

/-- Claim C8 (amended): building the Keyword Index changes each chunk record in
the corpus in exactly one way — it sets the `document_name` field to the owning
document's identifier (`setDocName` is `{chunk with document_name := name}`,
preserving every other field) — and the flattened list is the concatenation of
the documents' chunk lists in corpus order. -/
theorem flatten_mutation_amended (docs : Corpus) :
    (flatten_chunks docs).1 =
      docs.map (fun p => (p.1, DocData.mk (p.2.chunks.map (setDocName p.1)) p.2.chunk_count)) ∧
    (flatten_chunks docs).2 =
      docs.flatMap (fun p => p.2.chunks.map (setDocName p.1)) := by
  unfold flatten_chunks
  rw [flatten_chunks_aux]
  simp

/-! Section: Relevant-content claims -/

theorem dedupAux_key_mem :
    ∀ (xs : List SearchResult) (seen : List Text) (k : Text),
      (k ∈ (dedupAux seen xs).map resKey) ↔ (k ∈ xs.map resKey ∧ k ∉ seen) := by
  intro xs
  induction xs with
  | nil => intro seen k; simp [dedupAux]
  | cons r rest ih =>
    intro seen k
    by_cases hr : resKey r ∈ seen
    · rw [dedupAux, if_pos hr, ih]
      simp only [List.map_cons, List.mem_cons]
      constructor
      · rintro ⟨hk, hks⟩
        exact ⟨Or.inr hk, hks⟩
      · rintro ⟨hk | hk, hks⟩
        · subst hk; exact absurd hr hks
        · exact ⟨hk, hks⟩
    · rw [dedupAux, if_neg hr]
      simp only [List.map_cons, List.mem_cons, ih]
      constructor
      · rintro (hk | ⟨hk, hks⟩)
        · subst hk; exact ⟨Or.inl rfl, hr⟩
        · exact ⟨Or.inr hk, fun hm => hks (Or.inr hm)⟩
      · rintro ⟨hk | hk, hks⟩
        · exact Or.inl hk
        · by_cases hkr : k = resKey r
          · exact Or.inl hkr
          · exact Or.inr ⟨hk, fun hm => hm.elim hkr hks⟩

theorem frcAllResults_flatMap (s : KnowledgeBaseState) (vdb : VectorDatabase)
    (sem : Text → ℕ → List SearchResult) (terms : List Text) :
    frcAllResults s vdb sem terms =
      (terms.take 5).flatMap
        (fun t => (kb_search s vdb sem t (searchModeFor vdb) 3).map (tagTerm t)) := by
  unfold frcAllResults
  rw [foldl_append_flatMap, List.nil_append]

/-- Claim C9, as stated: two runs of `find_relevant_content` on the same input
and corpus return the same deduplicated, score-sorted result list, regardless
of the (unspecified) enumeration order of the extracted term set.  Refuted:
with corpus chunk `"vxrail powerstore powerstore"` and notes
`"vxrail powerstore"`, the enumeration starting with `"vxrail"` keeps the
duplicate-eliminated result found by `"vxrail"` (score 1/3) while the one
starting with `"powerstore"` keeps the result found by `"powerstore"`
(score 2/3), so the returned lists differ. -/
theorem frc_determinism_cex :
    ¬ (∀ (s : KnowledgeBaseState) (vdb : VectorDatabase)
        (sem : Text → ℕ → List SearchResult) (notes : Text) (m : ℕ) (ts1 ts2 : List Text),
        SetOrderOf (extract_found_terms notes) ts1 →
        SetOrderOf (extract_found_terms notes) ts2 →
        (find_relevant_content s vdb sem notes m ts1).results =
          (find_relevant_content s vdb sem notes m ts2).results) := by
  intro h
  have := h c9State noVdb semNone c9Notes 10 c9TermsA c9TermsB (by decide) (by decide)
  exact absurd this (by decide)

/-- Claim C9 (amended): what is stable across the two runs is the *set of
chunk identities*: when at most 5 distinct terms are extracted (so all of them
are searched) and the deduplicated results fit within `max_results`, any two
enumeration orders of the extracted term set yield returned result lists with
the same chunk-identity set.  The full records (scores, term provenance and
order) can differ, as the counterexample shows. -/
theorem frc_stable_key_set (s : KnowledgeBaseState) (vdb : VectorDatabase)
    (sem : Text → ℕ → List SearchResult) (notes : Text) (m : ℕ) (ts1 ts2 : List Text)
    (h1 : SetOrderOf (extract_found_terms notes) ts1)
    (h2 : SetOrderOf (extract_found_terms notes) ts2)
    (h5 : (extract_found_terms notes).dedup.length ≤ 5)
    (hm1 : (dedup_results (frcAllResults s vdb sem ts1)).length ≤ m)
    (hm2 : (dedup_results (frcAllResults s vdb sem ts2)).length ≤ m) :
    ∀ k, k ∈ resultKeys (find_relevant_content s vdb sem notes m ts1).results ↔
         k ∈ resultKeys (find_relevant_content s vdb sem notes m ts2).results := by
  intro k
  by_cases hemp : (strip notes).isEmpty = true
  · simp [find_relevant_content, hemp]
  · have hres : ∀ ts, (find_relevant_content s vdb sem notes m ts).results =
        (dedup_results (frcAllResults s vdb sem ts)).take m := by
      intro ts
      simp [find_relevant_content, hemp]
    have p1 : ts1 ~ (extract_found_terms notes).dedup := h1.2
    have p2 : ts2 ~ (extract_found_terms notes).dedup := h2.2
    have hp12 : ts1 ~ ts2 := p1.trans p2.symm
    have hlen1 : ts1.length ≤ 5 := by
      have := p1.length_eq
      omega
    have hlen2 : ts2.length ≤ 5 := by
      have := p2.length_eq
      omega
    have hall : frcAllResults s vdb sem ts1 ~ frcAllResults s vdb sem ts2 := by
      rw [frcAllResults_flatMap, frcAllResults_flatMap,
        List.take_of_length_le hlen1, List.take_of_length_le hlen2]
      exact hp12.flatMap_right _
    have key_iff : ∀ rs : List SearchResult,
        (k ∈ (sortDesc dedupScore (dedupAux [] rs)).map resKey) ↔ k ∈ rs.map resKey := by
      intro rs
      rw [List.Perm.mem_iff ((sortDesc_perm dedupScore (dedupAux [] rs)).map resKey)]
      rw [dedupAux_key_mem rs [] k]
      simp
    rw [hres ts1, hres ts2, List.take_of_length_le hm1, List.take_of_length_le hm2]
    show k ∈ (sortDesc dedupScore (dedupAux [] (frcAllResults s vdb sem ts1))).map resKey ↔
      k ∈ (sortDesc dedupScore (dedupAux [] (frcAllResults s vdb sem ts2))).map resKey
    rw [key_iff, key_iff]
    exact (hall.map resKey).mem_iff

theorem frc_stable_key_set_witness :
    SetOrderOf (extract_found_terms c9Notes) c9TermsA ∧
    SetOrderOf (extract_found_terms c9Notes) c9TermsB ∧
    (extract_found_terms c9Notes).dedup.length ≤ 5 ∧
    (dedup_results (frcAllResults c9State noVdb semNone c9TermsA)).length ≤ 10 ∧
    (dedup_results (frcAllResults c9State noVdb semNone c9TermsB)).length ≤ 10 ∧
    (∀ k, k ∈ resultKeys (find_relevant_content c9State noVdb semNone c9Notes 10 c9TermsA).results ↔
          k ∈ resultKeys (find_relevant_content c9State noVdb semNone c9Notes 10 c9TermsB).results) :=
  ⟨by decide, by decide, by decide, by decide, by decide,
    frc_stable_key_set c9State noVdb semNone c9Notes 10 c9TermsA c9TermsB
      (by decide) (by decide) (by decide) (by decide) (by decide)⟩
